import Mathlib

/- Shallow embedding of src/homography.py (homography estimation by DLT,
   inlier scoring and RANSAC).

   Scalars are modelled by an arbitrary linear ordered field K, standing for
   the machine reals.  The external numerical routines stay external, as
   parameters: np.sqrt is a function sqrt : K → K, the V^H factor returned by
   np.linalg.svd is a function svdVh from matrices (lists of rows) to
   matrices, and the global numpy random generator is a stream s : ℕ → ℕ of
   raw draws.  Python callables that can raise are embedded as Except PyErr
   valued functions. -/

/-- Errors a modelled Python call can raise: list or array index out of range,
and numpy ValueError (sample larger than population, bad reshape). -/
inductive PyErr where
  | indexError : PyErr
  | valueError : PyErr
deriving DecidableEq

/-- A 3 by 3 matrix, as the numpy arrays holding homographies. -/
abbrev M3 (K : Type) := Fin 3 → Fin 3 → K

instance {ε α : Type} [DecidableEq ε] [DecidableEq α] : DecidableEq (Except ε α) :=
  fun a b =>
    match a, b with
    | .ok x, .ok y => decidable_of_iff (x = y) (by simp)
    | .error e, .error f => decidable_of_iff (e = f) (by simp)
    | .ok _, .error _ => isFalse (by simp)
    | .error _, .ok _ => isFalse (by simp)

variable {K : Type} [LinearOrderedField K]

/-- Row [x_a, y_a, 1, 0, 0, 0, -x_a x_b, -y_a x_b, -x_b] appended for one
correspondence (homography.py line 20). -/
def designRow1 (p q : K × K) : List K :=
  [p.1, p.2, 1, 0, 0, 0, -(p.1 * q.1), -(p.2 * q.1), -q.1]

/-- Row [0, 0, 0, x_a, y_a, 1, -x_a y_b, -y_a y_b, -y_b] (homography.py
line 21). -/
def designRow2 (p q : K × K) : List K :=
  [0, 0, 0, p.1, p.2, 1, -(p.1 * q.2), -(p.2 * q.2), -q.2]

/-- The two rows appended to A for one correspondence (lines 20 and 21). -/
def designRows (p q : K × K) : List (List K) := [designRow1 p q, designRow2 p q]

/-- The loop of homography.py lines 15 to 22: for i in range(n), with
n = pts1.shape[1], read pts1[:, i] and pts2[:, i] and append the two rows.
Reading a column of pts2 past its end raises IndexError, which happens exactly
when pts2 is shorter than pts1. -/
def buildA : List (K × K) → List (K × K) → Except PyErr (List (List K))
  | [], _ => .ok []
  | _ :: _, [] => .error .indexError
  | p :: ps, q :: qs =>
    match buildA ps qs with
    | .error e => .error e
    | .ok rest => .ok (designRows p q ++ rest)

/-- The design matrix buildA returns on equal length inputs, in closed form. -/
def designList (ps qs : List (K × K)) : List (List K) :=
  (ps.zip qs).flatMap fun pq => designRows pq.1 pq.2

/-- Row major reading of a 9 vector as a 3 by 3 matrix: entry (i, j) is
component 3i + j. -/
def rowMat (v : List K) : M3 K := fun i j => v.getD (3 * i.1 + j.1) 0

/-- h.reshape((3, 3)) of line 27: row major reshaping of a 9 vector; numpy
raises ValueError unless the vector has exactly 9 entries. -/
def reshape3 (v : List K) : Except PyErr (M3 K) :=
  if v.length = 9 then .ok (rowMat v) else .error .valueError

/-- find_homography (homography.py lines 6 to 28).  The external SVD enters
through svdVh, standing for the V^H factor of np.linalg.svd(A); line 26 takes
its last row (Vh[-1, :], an IndexError on an empty factor) and line 27
reshapes it into the 3 by 3 matrix H. -/
def find_homography (svdVh : List (List K) → List (List K))
    (pts1 pts2 : List (K × K)) : Except PyErr (M3 K) :=
  match buildA pts1 pts2 with
  | .error e => .error e
  | .ok A =>
    match (svdVh A).getLast? with
    | none => .error .indexError
    | some v => reshape3 v

/-- Elementwise division of a matrix by a scalar: H / H[2,2] on line 38. -/
def matDiv (H : M3 K) (c : K) : M3 K := fun i j => H i j / c

/-- Elementwise difference of two matrices (line 38). -/
def matSub (A B : M3 K) : M3 K := fun i j => A i j - B i j

/-- np.diag((a, b, c)) on line 39. -/
def diag3 (a b c : K) : M3 K := ![![a, 0, 0], ![0, b, 0], ![0, 0, c]]

/-- Product of two 3 by 3 matrices (the @ operators on line 39). -/
def matMul3 (A B : M3 K) : M3 K := fun i j =>
  A i 0 * B 0 j + A i 1 * B 1 j + A i 2 * B 2 j

/-- Frobenius norm, the default np.linalg.norm of a matrix on line 39, with
the external square root as a parameter. -/
def frobNorm (sqrt : K → K) (A : M3 K) : K :=
  sqrt (A 0 0 ^ 2 + A 0 1 ^ 2 + A 0 2 ^ 2 + A 1 0 ^ 2 + A 1 1 ^ 2 +
    A 1 2 ^ 2 + A 2 0 ^ 2 + A 2 1 ^ 2 + A 2 2 ^ 2)

/-- homography_error (homography.py lines 31 to 39).  The body is straight
line numpy arithmetic: the division by H1[2,2] and H2[2,2] happens
unconditionally, and numpy division by zero does not raise, so no input makes
this call fail; embedding it into Except records that absence of any error
path in the source. -/
def homography_error (sqrt : K → K) (H1 H2 : M3 K) (focal : K) :
    Except PyErr K :=
  .ok (frobNorm sqrt (matMul3 (matMul3 (diag3 (1 / focal) (1 / focal) 1)
    (matSub (matDiv H1 (H1 2 2)) (matDiv H2 (H2 2 2)))) (diag3 focal focal 1)))

/-- Column i of Hp1 = H @ vstack((pts1, ones)) on line 55: H applied to the
homogeneous vector (x, y, 1). -/
def proj3 (H : M3 K) (p : K × K) : K × K × K :=
  (H 0 0 * p.1 + H 0 1 * p.2 + H 0 2,
   H 1 0 * p.1 + H 1 1 * p.2 + H 1 2,
   H 2 0 * p.1 + H 2 1 * p.2 + H 2 2)

/-- Line 56: per point error sqrt((Hp1_x/Hp1_z - x_2)^2 + (Hp1_y/Hp1_z - y_2)^2),
one entry per correspondence. -/
def projErrors (sqrt : K → K) (H : M3 K) (pts1 pts2 : List (K × K)) : List K :=
  List.zipWith (fun p q =>
    sqrt (((proj3 H p).1 / (proj3 H p).2.2 - q.1) ^ 2 +
      ((proj3 H p).2.1 / (proj3 H p).2.2 - q.2) ^ 2)) pts1 pts2

/-- count_homography_inliers (homography.py lines 42 to 58).  Line 57 counts
the entries with errors < thresh ** 2, the square of the threshold. -/
def count_homography_inliers (sqrt : K → K) (H : M3 K)
    (pts1 pts2 : List (K × K)) (thresh : K) : ℕ × List K :=
  ((projErrors sqrt H pts1 pts2).countP fun e => decide (e < thresh ^ 2),
    projErrors sqrt H pts1 pts2)

/-- One sample without replacement: the draw selects a position in the pool,
the element there is taken and removed from the pool.  Together with choice4
this models np.random.choice(n, 4, replace=False) of line 82, with the
external random generator represented by the raw draw values. -/
def drawDistinct : List ℕ → List ℕ → List ℕ
  | _, [] => []
  | pool, d :: ds =>
    if h : 0 < pool.length then
      pool.get ⟨d % pool.length, Nat.mod_lt d h⟩ ::
        drawDistinct (pool.erase (pool.get ⟨d % pool.length, Nat.mod_lt d h⟩)) ds
    else []

/-- np.random.choice(pts1.shape[1], 4, replace=False) on line 82: four
distinct indices out of range n, drawn without replacement; numpy raises
ValueError when the population n is smaller than the sample size 4.  Trial t
consumes the raw draws 4t, 4t+1, 4t+2, 4t+3 of the stream s. -/
def choice4 (n : ℕ) (s : ℕ → ℕ) (t : ℕ) : Except PyErr (List ℕ) :=
  if 4 ≤ n then
    .ok (drawDistinct (List.range n)
      [s (4 * t), s (4 * t + 1), s (4 * t + 2), s (4 * t + 3)])
  else .error .valueError

/-- The mutable loop state of find_homography_RANSAC, lines 76 to 78:
Hbest = None, ninliers = 0, errors = None initially. -/
structure RState (K : Type) where
  Hbest : Option (M3 K)
  ninliers : ℕ
  errors : Option (List K)
deriving DecidableEq

/-- One iteration body, lines 81 to 90: sample four correspondences, fit a
candidate homography on them, score it against the full correspondence set. -/
def trialResult (sqrt : K → K) (svdVh : List (List K) → List (List K))
    (pts1 pts2 : List (K × K)) (thresh : K) (s : ℕ → ℕ) (t : ℕ) :
    Except PyErr (M3 K × ℕ × List K) :=
  match choice4 pts1.length s t with
  | .error e => .error e
  | .ok idx =>
    match find_homography svdVh (idx.map fun i => pts1.getD i (0, 0))
        (idx.map fun i => pts2.getD i (0, 0)) with
    | .error e => .error e
    | .ok H =>
      .ok (H, (count_homography_inliers sqrt H pts1 pts2 thresh).1,
        (count_homography_inliers sqrt H pts1 pts2 thresh).2)

/-- Lines 93 to 96: replace the best triple only when the local inlier count
strictly exceeds the best one so far. -/
def ransacStep (sqrt : K → K) (svdVh : List (List K) → List (List K))
    (pts1 pts2 : List (K × K)) (thresh : K) (s : ℕ → ℕ)
    (st : RState K) (t : ℕ) : Except PyErr (RState K) :=
  match trialResult sqrt svdVh pts1 pts2 thresh s t with
  | .error e => .error e
  | .ok (H, ln, le) =>
    .ok (if ln > st.ninliers then ⟨some H, ln, some le⟩ else st)

/-- The for loop of line 80, one state per iteration; a Python exception in
the body aborts the whole call. -/
def ransacLoop (step : RState K → ℕ → Except PyErr (RState K)) :
    RState K → List ℕ → Except PyErr (RState K)
  | st, [] => .ok st
  | st, t :: ts =>
    match step st t with
    | .error e => .error e
    | .ok st2 => ransacLoop step st2 ts

/-- The trial indices run by the loop for _ in range(niter) on line 80. -/
def ransacSchedule (niter : ℕ) : List ℕ := List.range niter

/-- find_homography_RANSAC (homography.py lines 61 to 98). -/
def find_homography_RANSAC (sqrt : K → K)
    (svdVh : List (List K) → List (List K)) (pts1 pts2 : List (K × K))
    (niter : ℕ) (thresh : K) (s : ℕ → ℕ) : Except PyErr (RState K) :=
  ransacLoop (ransacStep sqrt svdVh pts1 pts2 thresh s) ⟨none, 0, none⟩
    (ransacSchedule niter)

/-- Dehomogenization as the spec words it: divide the first two coordinates of
H (x, y, 1) by the third. -/
def dehomog (H : M3 K) (p : K × K) : K × K :=
  ((proj3 H p).1 / (proj3 H p).2.2, (proj3 H p).2.1 / (proj3 H p).2.2)

/-- Euclidean distance in the plane, with the square root as a parameter. -/
def euclDist (sqrt : K → K) (p q : K × K) : K :=
  sqrt ((p.1 - q.1) ^ 2 + (p.2 - q.2) ^ 2)

/-- Integer square root by linear search, used only to build ratSqrt. -/
def natSqrtL (n : ℕ) : ℕ :=
  ((List.range (n + 1)).filter fun k => decide (k * k ≤ n)).length - 1

/-- Stand in for np.sqrt in concrete evaluations; on the perfect squares that
appear in the witnesses below it agrees with the mathematical square root. -/
def ratSqrt (x : ℚ) : ℚ := mkRat (natSqrtL x.num.toNat) (natSqrtL x.den)

/-- Concrete stand in for the V^H factor of np.linalg.svd, constantly a single
9 entry row; enough to observe the control flow of find_homography, which
never inspects the factor beyond its last row. -/
def svdStubId : List (List ℚ) → List (List ℚ) := fun _ => [[1, 0, 0, 0, 1, 0, 0, 0, 1]]

/-- A concrete random stream for the witnesses. -/
def s0 : ℕ → ℕ := fun _ => 0

/-- The identity homography over ℚ. -/
def idQ : M3 ℚ := ![![1, 0, 0], ![0, 1, 0], ![0, 0, 1]]

/-- Four concrete correspondence sources. -/
def pts4 : List (ℚ × ℚ) := [(0, 0), (1, 0), (0, 1), (1, 1)]

/-- pts4 translated by (2, 0): every identity projection misses by distance 2. -/
def pts4far : List (ℚ × ℚ) := [(2, 0), (3, 0), (2, 1), (3, 1)]

/-- Three correspondences only, fewer than the four a homography requires. -/
def pts3 : List (ℚ × ℚ) := [(0, 0), (1, 0), (0, 1)]

/-- A homography with vanishing bottom right entry. -/
def Hdeg : M3 ℚ := ![![1, 0, 0], ![0, 1, 0], ![0, 0, 0]]

/- Helper lemmas. -/

theorem zipWith_getD {α β γ : Type} (f : α → β → γ) :
    ∀ (ps : List α) (qs : List β) (i : ℕ), i < ps.length → i < qs.length →
      ∀ (dc : γ) (da : α) (db : β),
        (List.zipWith f ps qs).getD i dc = f (ps.getD i da) (qs.getD i db)
  | [], _, i, hi, _, _, _, _ => absurd hi (by simp)
  | _ :: _, [], i, _, hj, _, _, _ => absurd hj (by simp)
  | p :: ps, q :: qs, 0, _, _, dc, da, db => rfl
  | p :: ps, q :: qs, i + 1, hi, hj, dc, da, db => by
      simpa using zipWith_getD f ps qs i (by simpa using hi) (by simpa using hj) dc da db

/- C1.  The spec claim reads the inlier test as errors[i] < t with the raw
threshold.  Line 57 of the source compares errors < thresh ** 2 instead,
although the error is already a plain Euclidean distance and the docstring of
count_homography_inliers promises a comparison with the threshold itself, so
the code contradicts its own documentation.  At threshold 2 the identity
homography on the single correspondence (0,0) ↦ (3,0) has error exactly 3:
the code counts it as an inlier (3 < 4), the documented semantics does not
(3 ≥ 2). -/

/-- C1, failing input evaluated: with H the identity, pts1 = [(0,0)],
pts2 = [(3,0)] and threshold 2, the error vector is [3]; the source counts
1 inlier because it compares with the squared threshold 4, while the number
of errors strictly below the raw threshold 2 is 0. -/
theorem count_inliers_uses_squared_threshold :
    (count_homography_inliers ratSqrt idQ [((0 : ℚ), (0 : ℚ))] [((3 : ℚ), (0 : ℚ))] 2).2 = [3] ∧
    (count_homography_inliers ratSqrt idQ [((0 : ℚ), (0 : ℚ))] [((3 : ℚ), (0 : ℚ))] 2).1 = 1 ∧
    ((count_homography_inliers ratSqrt idQ [((0 : ℚ), (0 : ℚ))] [((3 : ℚ), (0 : ℚ))] 2).2.countP
      fun e => decide (e < (2 : ℚ))) = 0 := by
  with_unfolding_all decide

/-- C4 counterexample: homography_error applied to a matrix whose [2,2] entry
is 0 returns an ordinary value, it does not fail with a degenerate
normalization error. -/
theorem homography_error_degenerate_returns :
    (homography_error ratSqrt Hdeg Hdeg 1000).isOk = true := by
  with_unfolding_all decide

/-- C4 amended: homography_error performs no degeneracy check at all; for
every pair of matrices, degenerate or not, and every focal length the call
succeeds (the source body is straight line arithmetic with no error path, the
division by H[2,2] happens unconditionally). -/
theorem homography_error_never_raises (sqrt : K → K) (H1 H2 : M3 K) (focal : K) :
    (homography_error sqrt H1 H2 focal).isOk = true := rfl

/-- C8: scaling one argument of homography_error by a nonzero constant c and
comparing against the unscaled matrix gives the same result as comparing the
matrix against itself: the normalization by the [2,2] entry cancels the
scale. -/
theorem homography_error_scale_invariant (sqrt : K → K) (H : M3 K) (c focal : K)
    (h22 : H 2 2 ≠ 0) (hc : c ≠ 0) :
    homography_error sqrt (fun i j => c * H i j) H focal =
      homography_error sqrt H H focal := by
  have hdiv : matDiv (fun i j => c * H i j) ((fun i j => c * H i j) 2 2) =
      matDiv H (H 2 2) := by
    funext i j
    show c * H i j / (c * H 2 2) = H i j / H 2 2
    exact mul_div_mul_left (H i j) (H 2 2) hc
  simp only [homography_error, hdiv]

/-- C8 witness at the identity matrix, c = 2, focal = 1000. -/
theorem homography_error_scale_invariant_witness :
    homography_error ratSqrt (fun i j => 2 * idQ i j) idQ 1000 =
      homography_error ratSqrt idQ idQ 1000 :=
  homography_error_scale_invariant ratSqrt idQ 2 1000 (by with_unfolding_all decide)
    (by with_unfolding_all decide)

/-- C6: the error vector of count_homography_inliers has exactly one entry per
correspondence, does not depend on the threshold, and its entry i is the
Euclidean distance between the dehomogenized projection of pts1[i] through H
and pts2[i]. -/
theorem scorer_errors_length_and_pointwise (sqrt : K → K) (H : M3 K)
    (pts1 pts2 : List (K × K)) (thresh thresh2 : K)
    (hlen : pts1.length = pts2.length) :
    (count_homography_inliers sqrt H pts1 pts2 thresh).2.length = pts1.length ∧
    (count_homography_inliers sqrt H pts1 pts2 thresh).2 =
      (count_homography_inliers sqrt H pts1 pts2 thresh2).2 ∧
    ∀ i, i < pts1.length →
      (count_homography_inliers sqrt H pts1 pts2 thresh).2.getD i 0 =
        euclDist sqrt (dehomog H (pts1.getD i (0, 0))) (pts2.getD i (0, 0)) := by
  refine ⟨?_, rfl, ?_⟩
  · simp [count_homography_inliers, projErrors, hlen]
  · intro i hi
    have h := zipWith_getD
      (fun p q : K × K =>
        sqrt (((proj3 H p).1 / (proj3 H p).2.2 - q.1) ^ 2 +
          ((proj3 H p).2.1 / (proj3 H p).2.2 - q.2) ^ 2))
      pts1 pts2 i hi (hlen ▸ hi) 0 (0, 0) (0, 0)
    exact h

/-- C6 witness at the identity matrix on four correspondences. -/
theorem scorer_errors_length_and_pointwise_witness :
    (count_homography_inliers ratSqrt idQ pts4 pts4far 1).2.length = pts4.length ∧
    (count_homography_inliers ratSqrt idQ pts4 pts4far 1).2 =
      (count_homography_inliers ratSqrt idQ pts4 pts4far 2).2 ∧
    ∀ i, i < pts4.length →
      (count_homography_inliers ratSqrt idQ pts4 pts4far 1).2.getD i 0 =
        euclDist ratSqrt (dehomog idQ (pts4.getD i (0, 0))) (pts4far.getD i (0, 0)) :=
  scorer_errors_length_and_pointwise ratSqrt idQ pts4 pts4far 1 2 rfl

/- Structure of the design matrix. -/

theorem designList_cons (p q : K × K) (ps qs : List (K × K)) :
    designList (p :: ps) (q :: qs) =
      designRow1 p q :: designRow2 p q :: designList ps qs := by
  simp [designList, designRows]

theorem buildA_eq : ∀ (ps qs : List (K × K)), ps.length = qs.length →
    buildA ps qs = .ok (designList ps qs)
  | [], [], _ => rfl
  | [], _ :: _, h => absurd h (by simp)
  | _ :: _, [], h => absurd h (by simp)
  | p :: ps, q :: qs, h => by
      have ih := buildA_eq ps qs (by simpa using h)
      simp [buildA, ih, designList_cons, designRows]

theorem buildA_short : ∀ (ps qs : List (K × K)), qs.length < ps.length →
    buildA ps qs = .error .indexError
  | [], _, h => absurd h (by simp)
  | _ :: _, [], _ => rfl
  | p :: ps, q :: qs, h => by
      have ih := buildA_short ps qs (by simpa using h)
      simp [buildA, ih]

theorem designList_length : ∀ (ps qs : List (K × K)), ps.length = qs.length →
    (designList ps qs).length = 2 * ps.length
  | [], [], _ => rfl
  | [], _ :: _, h => absurd h (by simp)
  | _ :: _, [], h => absurd h (by simp)
  | p :: ps, q :: qs, h => by
      have ih := designList_length ps qs (by simpa using h)
      simp only [designList_cons, List.length_cons, ih, List.length_cons]
      omega

theorem find_homography_eq_ok (svdVh : List (List K) → List (List K))
    (pts1 pts2 : List (K × K)) (hlen : pts1.length = pts2.length) :
    find_homography svdVh pts1 pts2 =
      match (svdVh (designList pts1 pts2)).getLast? with
      | none => .error .indexError
      | some v => reshape3 v := by
  unfold find_homography
  rw [buildA_eq pts1 pts2 hlen]

theorem designList_rows : ∀ (ps qs : List (K × K)) (i : ℕ), i < ps.length → i < qs.length →
    (designList ps qs)[2 * i]? = some (designRow1 (ps.getD i (0, 0)) (qs.getD i (0, 0))) ∧
    (designList ps qs)[2 * i + 1]? = some (designRow2 (ps.getD i (0, 0)) (qs.getD i (0, 0)))
  | [], _, i, hi, _ => absurd hi (by simp)
  | _ :: _, [], i, _, hj => absurd hj (by simp)
  | p :: ps, q :: qs, 0, _, _ => by
      simp [designList_cons]
  | p :: ps, q :: qs, i + 1, hi, hj => by
      have ih := designList_rows ps qs i (by simpa using hi) (by simpa using hj)
      have e1 : 2 * (i + 1) = 2 * i + 1 + 1 := by ring
      rw [designList_cons, e1]
      simpa using ih

/-- C2: for equal length inputs with at least 4 correspondences, the design
matrix built by find_homography has 2N rows, rows 2i and 2i+1 for the i-th
correspondence (xa, ya) ↦ (xb, yb) are [xa, ya, 1, 0, 0, 0, -xa xb, -ya xb, -xb]
and [0, 0, 0, xa, ya, 1, -xa yb, -ya yb, -yb], and the returned homography is
the last row of the V^H factor of the SVD of that matrix, reshaped row major
into 3 by 3. -/
theorem find_homography_dlt (svdVh : List (List K) → List (List K))
    (pts1 pts2 : List (K × K)) (row : List K)
    (hlen : pts1.length = pts2.length) (hn : 4 ≤ pts1.length)
    (hrow : (svdVh (designList pts1 pts2)).getLast? = some row)
    (h9 : row.length = 9) :
    buildA pts1 pts2 = .ok (designList pts1 pts2) ∧
    (designList pts1 pts2).length = 2 * pts1.length ∧
    (∀ i xa ya xb yb, i < pts1.length →
      pts1.getD i (0, 0) = (xa, ya) → pts2.getD i (0, 0) = (xb, yb) →
      (designList pts1 pts2)[2 * i]? =
        some [xa, ya, 1, 0, 0, 0, -(xa * xb), -(ya * xb), -xb] ∧
      (designList pts1 pts2)[2 * i + 1]? =
        some [0, 0, 0, xa, ya, 1, -(xa * yb), -(ya * yb), -yb]) ∧
    find_homography svdVh pts1 pts2 = .ok (rowMat row) := by
  refine ⟨buildA_eq pts1 pts2 hlen, designList_length pts1 pts2 hlen, ?_, ?_⟩
  · intro i xa ya xb yb hi h1 h2
    have h := designList_rows pts1 pts2 i hi (hlen ▸ hi)
    rw [h1, h2] at h
    exact h
  · rw [find_homography_eq_ok svdVh pts1 pts2 hlen, hrow]
    simp [reshape3, h9]

/-- C2 witness on four concrete correspondences and a concrete V^H factor. -/
theorem find_homography_dlt_witness :
    buildA pts4 pts4 = .ok (designList pts4 pts4) ∧
    (designList pts4 pts4).length = 2 * pts4.length ∧
    (∀ i xa ya xb yb, i < pts4.length →
      pts4.getD i (0, 0) = (xa, ya) → pts4.getD i (0, 0) = (xb, yb) →
      (designList pts4 pts4)[2 * i]? =
        some [xa, ya, 1, 0, 0, 0, -(xa * xb), -(ya * xb), -xb] ∧
      (designList pts4 pts4)[2 * i + 1]? =
        some [0, 0, 0, xa, ya, 1, -(xa * yb), -(ya * yb), -yb]) ∧
    find_homography svdStubId pts4 pts4 = .ok (rowMat [1, 0, 0, 0, 1, 0, 0, 0, 1]) :=
  find_homography_dlt svdStubId pts4 pts4 [1, 0, 0, 0, 1, 0, 0, 0, 1] rfl
    (by decide) rfl (by decide)

/-- C7 counterexample: find_homography applied to only three correspondences
does not fail with an InvalidInput error; it silently returns a matrix (here,
with a concrete stand in for the SVD factor, the identity). -/
theorem find_homography_three_points_returns :
    find_homography svdStubId pts3 pts3 = .ok idQ := by
  with_unfolding_all decide

/-- C7 amended: find_homography validates nothing.  With equal length inputs,
including fewer than 4 points, it returns the reshaped last SVD row as an
ordinary matrix; with pts2 shorter than pts1 the column read raises a generic
IndexError, not a dedicated InvalidInput error; coordinates are never checked
for finiteness. -/
theorem find_homography_no_validation (svdVh : List (List K) → List (List K))
    (pts1 pts2 : List (K × K)) :
    (pts2.length < pts1.length →
      find_homography svdVh pts1 pts2 = .error .indexError) ∧
    (pts1.length = pts2.length → ∀ row,
      (svdVh (designList pts1 pts2)).getLast? = some row → row.length = 9 →
      find_homography svdVh pts1 pts2 = .ok (rowMat row)) := by
  constructor
  · intro h
    rw [find_homography, buildA_short pts1 pts2 h]
  · intro hlen row hrow h9
    rw [find_homography_eq_ok svdVh pts1 pts2 hlen, hrow]
    simp [reshape3, h9]

/-- C7 amended witness: three equal length correspondences, no validation
failure, the reshaped last SVD row is returned. -/
theorem find_homography_no_validation_witness :
    find_homography svdStubId pts3 pts3 = .ok (rowMat [1, 0, 0, 0, 1, 0, 0, 0, 1]) :=
  (find_homography_no_validation svdStubId pts3 pts3).2 rfl
    [1, 0, 0, 0, 1, 0, 0, 0, 1] rfl (by decide)

/- Sampling without replacement. -/

theorem drawDistinct_mem : ∀ (ds pool : List ℕ) (x : ℕ),
    x ∈ drawDistinct pool ds → x ∈ pool
  | [], pool, x, hx => absurd hx (by simp [drawDistinct])
  | d :: ds, pool, x, hx => by
      unfold drawDistinct at hx
      split at hx
      case isTrue h =>
        rcases List.mem_cons.mp hx with h1 | h2
        · exact h1 ▸ List.get_mem pool _ _
        · exact (List.erase_sublist _ _).subset (drawDistinct_mem ds _ x h2)
      case isFalse h => simp at hx

theorem not_mem_erase_self {l : List ℕ} (hl : l.Nodup) (a : ℕ) : a ∉ l.erase a := by
  intro hmem
  have h1 : List.count a (l.erase a) = List.count a l - 1 := List.count_erase_self a l
  have h2 : List.count a l ≤ 1 := List.nodup_iff_count_le_one.mp hl a
  have h3 : 0 < List.count a (l.erase a) := List.count_pos_iff.mpr hmem
  omega

theorem drawDistinct_nodup : ∀ (ds pool : List ℕ), pool.Nodup →
    (drawDistinct pool ds).Nodup
  | [], _, _ => by simp [drawDistinct]
  | d :: ds, pool, hp => by
      unfold drawDistinct
      split
      case isTrue h =>
        refine List.nodup_cons.mpr ⟨?_, drawDistinct_nodup ds _ ((List.erase_sublist _ _).nodup hp)⟩
        intro hmem
        exact not_mem_erase_self hp _ (drawDistinct_mem ds _ _ hmem)
      case isFalse h => simp

theorem drawDistinct_length : ∀ (ds pool : List ℕ), ds.length ≤ pool.length →
    (drawDistinct pool ds).length = ds.length
  | [], _, _ => rfl
  | d :: ds, pool, h => by
      have hpos : 0 < pool.length := by
        simp only [List.length_cons] at h
        omega
      unfold drawDistinct
      rw [dif_pos hpos]
      have hm : pool.get ⟨d % pool.length, Nat.mod_lt d hpos⟩ ∈ pool :=
        List.get_mem pool _ _
      have he : (pool.erase (pool.get ⟨d % pool.length, Nat.mod_lt d hpos⟩)).length + 1 =
          pool.length := List.length_erase_add_one hm
      have ih := drawDistinct_length ds
        (pool.erase (pool.get ⟨d % pool.length, Nat.mod_lt d hpos⟩))
        (by simp only [List.length_cons] at h; omega)
      simp only [List.length_cons]
      rw [ih]

/-- C9: whenever the sampler of a RANSAC trial succeeds, it has drawn exactly
4 pairwise distinct correspondence indices, all below the population size n;
and the trial schedule driving the loop has exactly niter entries. -/
theorem ransac_sample_invariant (n : ℕ) (s : ℕ → ℕ) (t : ℕ) (idx : List ℕ)
    (niter : ℕ) (h : choice4 n s t = .ok idx) :
    idx.length = 4 ∧ idx.Nodup ∧ (∀ i ∈ idx, i < n) ∧
    (ransacSchedule niter).length = niter := by
  unfold choice4 at h
  split at h
  case isTrue hn =>
    injection h with h
    subst h
    refine ⟨?_, ?_, ?_, ?_⟩
    · exact drawDistinct_length _ _ (by simpa using hn)
    · exact drawDistinct_nodup _ _ (List.nodup_range n)
    · intro i hi
      simpa using drawDistinct_mem _ _ i hi
    · simp [ransacSchedule]
  case isFalse hn => exact absurd h (by simp)

/-- C9 witness: population 4, the all zeros stream, trial 0 draws the four
distinct indices 0, 1, 2, 3, and a schedule of 7 iterations has length 7. -/
theorem ransac_sample_invariant_witness :
    ([0, 1, 2, 3] : List ℕ).length = 4 ∧ ([0, 1, 2, 3] : List ℕ).Nodup ∧
    (∀ i ∈ ([0, 1, 2, 3] : List ℕ), i < 4) ∧
    (ransacSchedule 7).length = 7 :=
  ransac_sample_invariant 4 s0 0 [0, 1, 2, 3] 7 (by decide)

/- The RANSAC loop. -/

theorem ransacStep_error (sqrt : K → K) (svdVh : List (List K) → List (List K))
    (pts1 pts2 : List (K × K)) (thresh : K) (s : ℕ → ℕ) (st : RState K)
    (t : ℕ) (e : PyErr)
    (htr : trialResult sqrt svdVh pts1 pts2 thresh s t = .error e) :
    ransacStep sqrt svdVh pts1 pts2 thresh s st t = .error e := by
  unfold ransacStep
  rw [htr]

theorem ransacStep_of_trial (sqrt : K → K) (svdVh : List (List K) → List (List K))
    (pts1 pts2 : List (K × K)) (thresh : K) (s : ℕ → ℕ) (st : RState K)
    (t : ℕ) (H : M3 K) (ln : ℕ) (le : List K)
    (htr : trialResult sqrt svdVh pts1 pts2 thresh s t = .ok (H, ln, le)) :
    ransacStep sqrt svdVh pts1 pts2 thresh s st t =
      .ok (if ln > st.ninliers then ⟨some H, ln, some le⟩ else st) := by
  unfold ransacStep
  rw [htr]

theorem ransacLoop_nil (step : RState K → ℕ → Except PyErr (RState K))
    (st : RState K) : ransacLoop step st [] = .ok st := rfl

theorem ransacLoop_cons (step : RState K → ℕ → Except PyErr (RState K))
    (st : RState K) (t : ℕ) (ts : List ℕ) :
    ransacLoop step st (t :: ts) =
      match step st t with
      | .error e => .error e
      | .ok st2 => ransacLoop step st2 ts := rfl

theorem ransacStep_mono (sqrt : K → K) (svdVh : List (List K) → List (List K))
    (pts1 pts2 : List (K × K)) (thresh : K) (s : ℕ → ℕ)
    {st st' : RState K} {t : ℕ}
    (h : ransacStep sqrt svdVh pts1 pts2 thresh s st t = .ok st') :
    st.ninliers ≤ st'.ninliers := by
  rcases htr : trialResult sqrt svdVh pts1 pts2 thresh s t with e | ⟨H, ln, le⟩
  · rw [ransacStep_error sqrt svdVh pts1 pts2 thresh s st t e htr] at h
    exact Except.noConfusion h
  · rw [ransacStep_of_trial sqrt svdVh pts1 pts2 thresh s st t H ln le htr] at h
    injection h with h
    subst h
    by_cases hlt : ln > st.ninliers
    · rw [if_pos hlt]
      exact Nat.le_of_lt hlt
    · rw [if_neg hlt]

theorem ransacLoop_mono (sqrt : K → K) (svdVh : List (List K) → List (List K))
    (pts1 pts2 : List (K × K)) (thresh : K) (s : ℕ → ℕ) :
    ∀ (ts : List ℕ) (st st' : RState K),
      ransacLoop (ransacStep sqrt svdVh pts1 pts2 thresh s) st ts = .ok st' →
      st.ninliers ≤ st'.ninliers
  | [], st, st', h => by
      rw [ransacLoop_nil] at h
      injection h with h
      exact h ▸ le_rfl
  | t :: ts, st, st', h => by
      rw [ransacLoop_cons] at h
      rcases hstep : ransacStep sqrt svdVh pts1 pts2 thresh s st t with e | st2
      · rw [hstep] at h
        exact Except.noConfusion
          (h : (Except.error e : Except PyErr (RState K)) = .ok st')
      · rw [hstep] at h
        exact le_trans (ransacStep_mono sqrt svdVh pts1 pts2 thresh s hstep)
          (ransacLoop_mono sqrt svdVh pts1 pts2 thresh s ts st2 st' h)

/-- C3: the best triple is replaced only by strict improvement (a trial whose
count is at most the retained count leaves the state unchanged, ties
included; a strictly larger count installs the candidate triple), and across
any run of loop iterations the retained inlier count never decreases. -/
theorem ransac_update_strict_and_monotone (sqrt : K → K)
    (svdVh : List (List K) → List (List K)) (pts1 pts2 : List (K × K))
    (thresh : K) (s : ℕ → ℕ) :
    (∀ (st : RState K) (t : ℕ) (H : M3 K) (ln : ℕ) (le : List K),
      trialResult sqrt svdVh pts1 pts2 thresh s t = .ok (H, ln, le) →
      (ln ≤ st.ninliers → ransacStep sqrt svdVh pts1 pts2 thresh s st t = .ok st) ∧
      (st.ninliers < ln →
        ransacStep sqrt svdVh pts1 pts2 thresh s st t = .ok ⟨some H, ln, some le⟩)) ∧
    (∀ (ts : List ℕ) (st st' : RState K),
      ransacLoop (ransacStep sqrt svdVh pts1 pts2 thresh s) st ts = .ok st' →
      st.ninliers ≤ st'.ninliers) := by
  constructor
  · intro st t H ln le htr
    constructor
    · intro hle
      rw [ransacStep_of_trial sqrt svdVh pts1 pts2 thresh s st t H ln le htr,
        if_neg (by omega)]
    · intro hlt
      rw [ransacStep_of_trial sqrt svdVh pts1 pts2 thresh s st t H ln le htr,
        if_pos hlt]
  · exact ransacLoop_mono sqrt svdVh pts1 pts2 thresh s

/-- C3 witness: a concrete run of one iteration raises the retained count
from 0 to 4, and the theorem yields that 0 is at most 4. -/
theorem ransac_update_strict_and_monotone_witness :
    (⟨none, 0, none⟩ : RState ℚ).ninliers ≤
      (⟨some (rowMat [1, 0, 0, 0, 1, 0, 0, 0, 1]), 4, some [0, 0, 0, 0]⟩ : RState ℚ).ninliers :=
  (ransac_update_strict_and_monotone ratSqrt svdStubId pts4 pts4 1 s0).2
    (ransacSchedule 1) ⟨none, 0, none⟩
    ⟨some (rowMat [1, 0, 0, 0, 1, 0, 0, 0, 1]), 4, some [0, 0, 0, 0]⟩
    (by with_unfolding_all rfl)

theorem ransacLoop_keeps_empty (sqrt : K → K)
    (svdVh : List (List K) → List (List K)) (pts1 pts2 : List (K × K))
    (thresh : K) (s : ℕ → ℕ) :
    ∀ ts : List ℕ,
      (∀ t ∈ ts, ∃ H le,
        trialResult sqrt svdVh pts1 pts2 thresh s t = .ok (H, 0, le)) →
      ransacLoop (ransacStep sqrt svdVh pts1 pts2 thresh s) ⟨none, 0, none⟩ ts =
        .ok ⟨none, 0, none⟩
  | [], _ => rfl
  | t :: ts, h => by
      obtain ⟨H, le, htr⟩ := h t (List.mem_cons_self t ts)
      rw [ransacLoop_cons,
        ransacStep_of_trial sqrt svdVh pts1 pts2 thresh s ⟨none, 0, none⟩ t H 0 le htr,
        if_neg (Nat.lt_irrefl 0)]
      exact ransacLoop_keeps_empty sqrt svdVh pts1 pts2 thresh s ts
        (fun u hu => h u (List.mem_cons_of_mem t hu))

/-- C5: when every trial of the run produces inlier count 0, the loop runs
through all its iterations and find_homography_RANSAC returns the initial
state (no homography, count 0, no error vector) as an ordinary ok result,
neither an exception nor a zero matrix. -/
theorem ransac_no_model (sqrt : K → K) (svdVh : List (List K) → List (List K))
    (pts1 pts2 : List (K × K)) (niter : ℕ) (thresh : K) (s : ℕ → ℕ)
    (h : ∀ t, t < niter → ∃ H le,
      trialResult sqrt svdVh pts1 pts2 thresh s t = .ok (H, 0, le)) :
    find_homography_RANSAC sqrt svdVh pts1 pts2 niter thresh s =
      .ok ⟨none, 0, none⟩ := by
  unfold find_homography_RANSAC
  exact ransacLoop_keeps_empty sqrt svdVh pts1 pts2 thresh s (ransacSchedule niter)
    (fun t ht => h t (by simpa [ransacSchedule] using ht))

/-- C5 witness: four correspondences all displaced by distance 2 with
threshold 1, two iterations, every trial scores 0 inliers and the none state
is the ordinary result. -/
theorem ransac_no_model_witness :
    find_homography_RANSAC ratSqrt svdStubId pts4 pts4far 2 1 s0 =
      .ok ⟨none, 0, none⟩ :=
  ransac_no_model ratSqrt svdStubId pts4 pts4far 2 1 s0
    (fun t ht => ⟨rowMat [1, 0, 0, 0, 1, 0, 0, 0, 1], [2, 2, 2, 2],
      by with_unfolding_all rfl⟩)

/-- The consistency invariant of the loop state: whenever a best homography is
present, the retained count and error vector are exactly what the scorer
returns for it on the full correspondence set. -/
def ScorerConsistent (sqrt : K → K) (pts1 pts2 : List (K × K)) (thresh : K)
    (st : RState K) : Prop :=
  ∀ H, st.Hbest = some H →
    st.ninliers = (count_homography_inliers sqrt H pts1 pts2 thresh).1 ∧
    st.errors = some (count_homography_inliers sqrt H pts1 pts2 thresh).2

theorem trialResult_eq_error (sqrt : K → K)
    (svdVh : List (List K) → List (List K)) (pts1 pts2 : List (K × K))
    (thresh : K) (s : ℕ → ℕ) (t : ℕ) (e : PyErr)
    (hc : choice4 pts1.length s t = .error e) :
    trialResult sqrt svdVh pts1 pts2 thresh s t = .error e := by
  unfold trialResult
  rw [hc]

theorem trialResult_eq (sqrt : K → K) (svdVh : List (List K) → List (List K))
    (pts1 pts2 : List (K × K)) (thresh : K) (s : ℕ → ℕ) (t : ℕ) (idx : List ℕ)
    (hc : choice4 pts1.length s t = .ok idx) :
    trialResult sqrt svdVh pts1 pts2 thresh s t =
      match find_homography svdVh (idx.map fun i => pts1.getD i (0, 0))
          (idx.map fun i => pts2.getD i (0, 0)) with
      | .error e => .error e
      | .ok H => .ok (H, (count_homography_inliers sqrt H pts1 pts2 thresh).1,
          (count_homography_inliers sqrt H pts1 pts2 thresh).2) := by
  unfold trialResult
  rw [hc]

theorem trialResult_shape (sqrt : K → K)
    (svdVh : List (List K) → List (List K)) (pts1 pts2 : List (K × K))
    (thresh : K) (s : ℕ → ℕ) (t : ℕ) (H : M3 K) (ln : ℕ) (le : List K)
    (h : trialResult sqrt svdVh pts1 pts2 thresh s t = .ok (H, ln, le)) :
    ln = (count_homography_inliers sqrt H pts1 pts2 thresh).1 ∧
    le = (count_homography_inliers sqrt H pts1 pts2 thresh).2 := by
  rcases hc : choice4 pts1.length s t with e | idx
  · rw [trialResult_eq_error sqrt svdVh pts1 pts2 thresh s t e hc] at h
    exact Except.noConfusion h
  · rw [trialResult_eq sqrt svdVh pts1 pts2 thresh s t idx hc] at h
    rcases hf : find_homography svdVh (idx.map fun i => pts1.getD i (0, 0))
        (idx.map fun i => pts2.getD i (0, 0)) with e | H0
    · rw [hf] at h
      exact Except.noConfusion
        (h : (Except.error e : Except PyErr (M3 K × ℕ × List K)) = .ok (H, ln, le))
    · rw [hf] at h
      replace h : Except.ok (ε := PyErr)
          (H0, (count_homography_inliers sqrt H0 pts1 pts2 thresh).1,
            (count_homography_inliers sqrt H0 pts1 pts2 thresh).2) =
          .ok (H, ln, le) := h
      injection h with h
      simp only [Prod.mk.injEq] at h
      obtain ⟨rfl, rfl, rfl⟩ := h
      exact ⟨rfl, rfl⟩

theorem ransacStep_consistent (sqrt : K → K)
    (svdVh : List (List K) → List (List K)) (pts1 pts2 : List (K × K))
    (thresh : K) (s : ℕ → ℕ) {st st' : RState K} {t : ℕ}
    (hst : ScorerConsistent sqrt pts1 pts2 thresh st)
    (h : ransacStep sqrt svdVh pts1 pts2 thresh s st t = .ok st') :
    ScorerConsistent sqrt pts1 pts2 thresh st' := by
  rcases htr : trialResult sqrt svdVh pts1 pts2 thresh s t with e | ⟨H, ln, le⟩
  · rw [ransacStep_error sqrt svdVh pts1 pts2 thresh s st t e htr] at h
    exact Except.noConfusion h
  · rw [ransacStep_of_trial sqrt svdVh pts1 pts2 thresh s st t H ln le htr] at h
    injection h with h
    subst h
    by_cases hlt : ln > st.ninliers
    · rw [if_pos hlt]
      intro H' hH'
      replace hH' : some H = some H' := hH'
      injection hH' with hH'
      subst hH'
      obtain ⟨h1, h2⟩ :=
        trialResult_shape sqrt svdVh pts1 pts2 thresh s t H ln le htr
      exact ⟨h1, by rw [h2]⟩
    · rw [if_neg hlt]
      exact hst

theorem ransacLoop_consistent (sqrt : K → K)
    (svdVh : List (List K) → List (List K)) (pts1 pts2 : List (K × K))
    (thresh : K) (s : ℕ → ℕ) :
    ∀ (ts : List ℕ) (st st' : RState K),
      ScorerConsistent sqrt pts1 pts2 thresh st →
      ransacLoop (ransacStep sqrt svdVh pts1 pts2 thresh s) st ts = .ok st' →
      ScorerConsistent sqrt pts1 pts2 thresh st'
  | [], st, st', hst, h => by
      rw [ransacLoop_nil] at h
      injection h with h
      exact h ▸ hst
  | t :: ts, st, st', hst, h => by
      rw [ransacLoop_cons] at h
      rcases hstep : ransacStep sqrt svdVh pts1 pts2 thresh s st t with e | st2
      · rw [hstep] at h
        exact Except.noConfusion
          (h : (Except.error e : Except PyErr (RState K)) = .ok st')
      · rw [hstep] at h
        exact ransacLoop_consistent sqrt svdVh pts1 pts2 thresh s ts st2 st'
          (ransacStep_consistent sqrt svdVh pts1 pts2 thresh s hst hstep) h

/-- C10: whenever find_homography_RANSAC returns a state carrying a best
homography H, its inlier count and error vector are exactly the pair that
count_homography_inliers returns for H over the full correspondence set at
the given threshold; they were never taken from a different trial. -/
theorem ransac_result_consistent (sqrt : K → K)
    (svdVh : List (List K) → List (List K)) (pts1 pts2 : List (K × K))
    (niter : ℕ) (thresh : K) (s : ℕ → ℕ) (st : RState K) (H : M3 K)
    (hrun : find_homography_RANSAC sqrt svdVh pts1 pts2 niter thresh s = .ok st)
    (hH : st.Hbest = some H) :
    st.ninliers = (count_homography_inliers sqrt H pts1 pts2 thresh).1 ∧
    st.errors = some (count_homography_inliers sqrt H pts1 pts2 thresh).2 := by
  have hinit : ScorerConsistent sqrt pts1 pts2 thresh (⟨none, 0, none⟩ : RState K) :=
    fun H' hH' => Option.noConfusion hH'
  exact ransacLoop_consistent sqrt svdVh pts1 pts2 thresh s (ransacSchedule niter)
    ⟨none, 0, none⟩ st hinit hrun H hH

/-- C10 witness: a one iteration run that retains the identity homography
with count 4 and error vector [0, 0, 0, 0], exactly the scorer output. -/
theorem ransac_result_consistent_witness :
    (⟨some (rowMat [1, 0, 0, 0, 1, 0, 0, 0, 1]), 4, some [0, 0, 0, 0]⟩ : RState ℚ).ninliers =
      (count_homography_inliers ratSqrt (rowMat [1, 0, 0, 0, 1, 0, 0, 0, 1]) pts4 pts4 1).1 ∧
    (⟨some (rowMat [1, 0, 0, 0, 1, 0, 0, 0, 1]), 4, some [0, 0, 0, 0]⟩ : RState ℚ).errors =
      some (count_homography_inliers ratSqrt (rowMat [1, 0, 0, 0, 1, 0, 0, 0, 1]) pts4 pts4 1).2 :=
  ransac_result_consistent ratSqrt svdStubId pts4 pts4 1 1 s0
    ⟨some (rowMat [1, 0, 0, 0, 1, 0, 0, 0, 1]), 4, some [0, 0, 0, 0]⟩
    (rowMat [1, 0, 0, 0, 1, 0, 0, 0, 1])
    (by with_unfolding_all rfl) rfl
